import Mathlib

/-!
Verification of the CDS repository (two Jupyter notebooks: a Python
functions tutorial `Part_04.ipynb` and an ensemble-methods notebook).

The notebook-authored Python functions are shallowly embedded as Lean
definitions; straight-line notebook cells that perform I/O or statistics
are embedded as explicit effect lists and pure pipelines.  Machine floats
in the ensemble notebook are modelled over `ℚ`, with the (irrational)
square root appearing in `np.std` kept as an explicit function parameter.
-/

namespace CDS

/-! ## The `get_counts` function (Part_04.ipynb, cell 1)

Python source:
```
def get_counts(s):
    counts = {}
    for x in s:
        if x in counts:
            counts[x] += 1
        else:
            counts[x] = 1
    pairs = counts.items()
    return list(pairs)
```
A Python `dict` preserves insertion order, and `counts[x] += 1` leaves the
key position unchanged while `counts[x] = 1` appends a fresh key at the
end.  The dictionary is therefore embedded as an insertion-ordered
association list. -/

/-- One iteration of the counting loop: `counts[x] += 1` if the key `x` is
present (updated in place, order preserved), otherwise `counts[x] = 1`
(appended at the end), exactly as a Python dict behaves. -/
def bump {α : Type} [DecidableEq α] : List (α × Nat) → α → List (α × Nat)
  | [], x => [(x, 1)]
  | (k, v) :: rest, x =>
      if k = x then (k, v + 1) :: rest else (k, v) :: bump rest x

/-- `get_counts` from the functions notebook: fold the counting loop over
the input list, starting from the empty dictionary, and return the
insertion-ordered list of `(element, count)` pairs. -/
def get_counts {α : Type} [DecidableEq α] (s : List α) : List (α × Nat) :=
  s.foldl bump []

/-- Specification-side helper: the distinct elements of `s` listed in
order of first occurrence. -/
def firstOccurrences {α : Type} [DecidableEq α] (s : List α) : List α :=
  s.foldl (fun acc x => if x ∈ acc then acc else acc ++ [x]) []

lemma mem_foldl_firstOcc {α : Type} [DecidableEq α] (y : α) :
    ∀ (s acc : List α),
      y ∈ s.foldl (fun acc x => if x ∈ acc then acc else acc ++ [x]) acc ↔
        y ∈ acc ∨ y ∈ s := by
  intro s
  induction s with
  | nil => simp
  | cons a s ih =>
      intro acc
      simp only [List.foldl_cons, ih]
      by_cases h : a ∈ acc
      · simp [h]
        constructor
        · rintro (hy | hy)
          · exact Or.inl hy
          · exact Or.inr (Or.inr hy)
        · rintro (hy | hy | hy)
          · exact Or.inl hy
          · exact Or.inl (hy ▸ h)
          · exact Or.inr hy
      · simp [h, List.mem_append, or_assoc]

lemma nodup_foldl_firstOcc {α : Type} [DecidableEq α] :
    ∀ (s acc : List α), acc.Nodup →
      (s.foldl (fun acc x => if x ∈ acc then acc else acc ++ [x]) acc).Nodup := by
  intro s
  induction s with
  | nil => intro acc h; simpa using h
  | cons a s ih =>
      intro acc hacc
      simp only [List.foldl_cons]
      by_cases h : a ∈ acc
      · simpa [h] using ih acc hacc
      · refine ih _ ?_
        rw [if_neg h]
        simpa [List.nodup_append] using ⟨hacc, h⟩

lemma mem_firstOccurrences {α : Type} [DecidableEq α] (y : α) (s : List α) :
    y ∈ firstOccurrences s ↔ y ∈ s := by
  unfold firstOccurrences
  rw [mem_foldl_firstOcc]
  simp

lemma nodup_firstOccurrences {α : Type} [DecidableEq α] (s : List α) :
    (firstOccurrences s).Nodup :=
  nodup_foldl_firstOcc s [] List.nodup_nil

lemma firstOccurrences_append_singleton {α : Type} [DecidableEq α]
    (s : List α) (x : α) :
    firstOccurrences (s ++ [x]) =
      if x ∈ s then firstOccurrences s else firstOccurrences s ++ [x] := by
  unfold firstOccurrences
  rw [List.foldl_append]
  simp only [List.foldl_cons, List.foldl_nil]
  by_cases h : x ∈ s
  · rw [if_pos, if_pos h]
    rw [mem_foldl_firstOcc]
    simp [h]
  · rw [if_neg, if_neg h]
    rw [mem_foldl_firstOcc]
    simp [h]

lemma bump_map_of_mem {α : Type} [DecidableEq α] (f : α → Nat) (x : α) :
    ∀ (ks : List α), ks.Nodup → x ∈ ks →
      bump (ks.map fun k => (k, f k)) x =
        ks.map fun k => (k, if k = x then f k + 1 else f k) := by
  intro ks
  induction ks with
  | nil => intro _ hx; cases hx
  | cons k rest ih =>
      intro hnd hx
      simp only [List.map_cons, bump]
      by_cases hk : k = x
      · subst hk
        rw [if_pos rfl, if_pos rfl]
        have hrest : ∀ a ∈ rest, (a, f a) = (a, if a = k then f a + 1 else f a) := by
          intro a ha
          have : a ≠ k := by
            intro h
            exact (List.nodup_cons.mp hnd).1 (h ▸ ha)
          simp [this]
        rw [List.map_congr_left (fun a ha => (hrest a ha).symm)]
      · rw [if_neg hk, if_neg hk]
        have hxrest : x ∈ rest := by
          rcases List.mem_cons.mp hx with h | h
          · exact absurd h.symm hk
          · exact h
        rw [ih (List.nodup_cons.mp hnd).2 hxrest]

lemma bump_map_of_not_mem {α : Type} [DecidableEq α] (f : α → Nat) (x : α) :
    ∀ (ks : List α), x ∉ ks →
      bump (ks.map fun k => (k, f k)) x =
        (ks.map fun k => (k, f k)) ++ [(x, 1)] := by
  intro ks
  induction ks with
  | nil => intro _; rfl
  | cons k rest ih =>
      intro hx
      simp only [List.map_cons, bump]
      have hk : k ≠ x := fun h => hx (h ▸ List.mem_cons_self k rest)
      rw [if_neg hk, ih (fun h => hx (List.mem_cons_of_mem _ h))]
      simp

/-- Full characterisation of `get_counts`: the result pairs each distinct
element of `s`, in order of first occurrence, with its occurrence count. -/
lemma get_counts_eq {α : Type} [DecidableEq α] (s : List α) :
    get_counts s = (firstOccurrences s).map fun k => (k, s.count k) := by
  induction s using List.reverseRecOn with
  | nil => rfl
  | append_singleton s x ih =>
      unfold get_counts
      rw [List.foldl_append]
      simp only [List.foldl_cons, List.foldl_nil]
      have hfold : s.foldl bump [] = get_counts s := rfl
      rw [hfold, ih, firstOccurrences_append_singleton]
      by_cases hx : x ∈ s
      · rw [if_pos hx]
        have hxk : x ∈ firstOccurrences s := (mem_firstOccurrences x s).mpr hx
        rw [bump_map_of_mem (fun k => s.count k) x (firstOccurrences s)
          (nodup_firstOccurrences s) hxk]
        refine List.map_congr_left ?_
        intro k _
        by_cases hk : k = x
        · subst hk
          simp [List.count_append, List.count_singleton_self]
        · have hxk2 : x ≠ k := fun h => hk h.symm
          simp [List.count_append, List.count_singleton, hk, hxk2]
      · rw [if_neg hx]
        have hxk : x ∉ firstOccurrences s := fun h => hx ((mem_firstOccurrences x s).mp h)
        rw [bump_map_of_not_mem (fun k => s.count k) x (firstOccurrences s) hxk]
        rw [List.map_append]
        congr 1
        · refine List.map_congr_left ?_
          intro k hk
          have hkx : x ≠ k := by
            intro h
            exact hxk (h ▸ hk)
          simp [List.count_append, List.count_singleton, hkx]
        · simp [List.count_append, List.count_eq_zero_of_not_mem hx,
            List.count_singleton_self]

lemma get_counts_keys {α : Type} [DecidableEq α] (s : List α) :
    (get_counts s).map Prod.fst = firstOccurrences s := by
  rw [get_counts_eq, List.map_map]
  exact List.map_id'' (fun _ => rfl) _

/-! ## The `double_list` function (Part_04.ipynb, cell 5)

Python source:
```
def double_list(some_list):
    for pos in range(len(some_list)):
        some_list[pos] *= 2
```
The function mutates its argument in place and (having no `return`
statement) returns `None`.  The embedding returns the pair
(returned value, post-state of the argument list), with `None` modelled
by `Unit`.  Python's `x *= 2` dispatches on the element type, so the
element operation is a parameter: `· * 2` on integers,
self-concatenation on strings (`str` repetition by `2`). -/

/-- `x * 2` on a Python `int`. -/
def intTimes2 (x : Int) : Int := x * 2

/-- `s * 2` on a Python `str`: self-concatenation. -/
def strTimes2 (s : String) : String := s ++ s

/-- One iteration of the `double_list` loop body:
`some_list[pos] *= 2`.  An out-of-range position (which never occurs,
since `pos` ranges over `range(len(some_list))`) is a no-op here; the
error-aware embedding `double_listE` below raises instead. -/
def double_list_step {α : Type} (t2 : α → α) (cur : List α) (pos : Nat) : List α :=
  match cur[pos]? with
  | some v => cur.set pos (t2 v)
  | none => cur

/-- `double_list` from the functions notebook: iterate the loop body over
`range(len(some_list))` and return `(None, final list state)`. -/
def double_list {α : Type} (t2 : α → α) (l : List α) : Unit × List α :=
  ((), (List.range l.length).foldl (double_list_step t2) l)

lemma double_list_step_length {α : Type} (t2 : α → α) (cur : List α) (pos : Nat) :
    (double_list_step t2 cur pos).length = cur.length := by
  unfold double_list_step
  cases h : cur[pos]? with
  | none => rfl
  | some v => simp

lemma double_list_fold_length {α : Type} (t2 : α → α) :
    ∀ (ps : List Nat) (cur : List α),
      (ps.foldl (double_list_step t2) cur).length = cur.length := by
  intro ps
  induction ps with
  | nil => intro cur; rfl
  | cons p ps ih =>
      intro cur
      simp only [List.foldl_cons]
      rw [ih, double_list_step_length]

lemma double_list_fold_getElem {α : Type} (t2 : α → α) :
    ∀ (m k : Nat) (cur : List α) (i : Nat),
      ((List.range' k m).foldl (double_list_step t2) cur)[i]? =
        if k ≤ i ∧ i < k + m then (cur[i]?).map t2 else cur[i]? := by
  intro m
  induction m with
  | zero =>
      intro k cur i
      rw [if_neg (by omega)]
      rfl
  | succ m ih =>
      intro k cur i
      rw [List.range'_succ]
      simp only [List.foldl_cons]
      rw [ih]
      by_cases hik : i = k
      · subst hik
        rw [if_neg (by omega), if_pos (by omega)]
        unfold double_list_step
        cases h : cur[i]? with
        | none => simpa using h
        | some v =>
            have hlt : i < cur.length := by
              by_contra hge
              rw [List.getElem?_eq_none (by omega)] at h
              exact Option.noConfusion h
            simp [List.getElem?_set_self hlt]
      · have hcur : (double_list_step t2 cur k)[i]? = cur[i]? := by
          unfold double_list_step
          cases h : cur[k]? with
          | none => rfl
          | some v => rw [List.getElem?_set_ne (fun h => hik h.symm)]
        rw [hcur]
        by_cases hle : k ≤ i ∧ i < k + (m + 1)
        · rw [if_pos hle, if_pos (by omega)]
        · rw [if_neg hle, if_neg (by omega)]

lemma double_list_length {α : Type} (t2 : α → α) (l : List α) :
    (double_list t2 l).2.length = l.length :=
  double_list_fold_length t2 _ l

lemma double_list_getElem {α : Type} (t2 : α → α) (l : List α) (i : Nat) :
    (double_list t2 l).2[i]? = (l[i]?).map t2 := by
  show ((List.range l.length).foldl (double_list_step t2) l)[i]? = _
  rw [List.range_eq_range', double_list_fold_getElem]
  by_cases hi : i < l.length
  · rw [if_pos (by omega)]
  · rw [if_neg (by omega), List.getElem?_eq_none (by omega)]
    rfl

/-! ## State-threaded `get_counts` (for the frame property)

The counting loop of `get_counts` is re-embedded threading the state of
the argument list object through every iteration, so that the loop could
in principle modify it; the theorem below shows that it does not. -/

/-- `get_counts` with the argument list threaded as mutable state: each
loop iteration carries `(counts, state of the argument list)` and updates
only the dictionary. -/
def get_counts_st {α : Type} [DecidableEq α] (s : List α) :
    List (α × Nat) × List α :=
  s.foldl (fun st x => (bump st.1 x, st.2)) ([], s)

lemma get_counts_st_snd {α : Type} [DecidableEq α] :
    ∀ (s : List α) (st : List (α × Nat) × List α),
      (s.foldl (fun st x => (bump st.1 x, st.2)) st).2 = st.2 := by
  intro s
  induction s with
  | nil => intro st; rfl
  | cons a s ih => intro st; simp only [List.foldl_cons]; rw [ih]

lemma get_counts_st_fst {α : Type} [DecidableEq α] :
    ∀ (s : List α) (c : List (α × Nat)) (t : List α),
      (s.foldl (fun st x => (bump st.1 x, st.2)) (c, t)).1 = s.foldl bump c := by
  intro s
  induction s with
  | nil => intro c t; rfl
  | cons a s ih => intro c t; simp only [List.foldl_cons]; rw [ih]

/-! ## `sorted` with a `key` lambda (Part_04.ipynb, cells 14 and 16)

Python source:
```
sorted(strings, key = lambda x: len(x))
sorted(student_tuples, key = lambda s: s[2])
```
Python's builtin `sorted` returns a new list, sorted stably by the
comparison keys; it is modelled by the standard library's stable
`List.mergeSort` on the key order.  In a pure embedding the input list is
a value and is inherently left unchanged by the call. -/

/-- `sorted(l, key = f)`: stable sort of `l` by nondecreasing key. -/
def sortedByKey {α β : Type} [LinearOrder β] (key : α → β) (l : List α) : List α :=
  l.mergeSort fun a b => decide (key a ≤ key b)

lemma sortedByKey_perm {α β : Type} [LinearOrder β] (key : α → β) (l : List α) :
    (sortedByKey key l).Perm l :=
  List.mergeSort_perm l _

lemma sortedByKey_pairwise {α β : Type} [LinearOrder β] (key : α → β) (l : List α) :
    (sortedByKey key l).Pairwise fun a b => key a ≤ key b := by
  have h := @List.sorted_mergeSort α (fun a b : α => decide (key a ≤ key b))
    (fun a b c hab hbc => by
      simp only [decide_eq_true_eq] at hab hbc ⊢
      exact le_trans hab hbc)
    (fun a b => by
      simpa only [Bool.or_eq_true, decide_eq_true_eq] using le_total (key a) (key b))
    l
  exact h.imp fun hab => by simpa using hab

/-! ## The `fibo.py` module (Part_04.ipynb, cell 18)

Python source (written to `fibo.py` by the `%%writefile` magic):
```
def fib(n):    # print Fibonacci series up to n
    a, b = 0, 1
    print(b, end=" ")
    while (n >= 2):
        f = a + b
        print(f, end=" ")
        a, b = b, f
        n -= 1

def fib2(n):   # return Fibonacci series up to n
    a, b = 0, 1
    result = [1]
    while (n >= 2):
        f = a + b
        result.append(f)
        a, b = b, f
        n -= 1
    return result
```
`fib` is embedded by the sequence of numbers it prints; `fib2` by its
return value, built with `result.append` (snoc) exactly as in the source.
The `while (n >= 2)` loop, with `n` decremented once per iteration, makes
`max (n - 1) 0` passes for an integer argument `n`; that count is the
fuel of the loop embeddings. -/

/-- The printing loop of `fib`: each pass computes `f = a + b`, prints
`f`, and continues with `a, b = b, f`. -/
def fibPrintLoop (a b : Nat) : Nat → List Nat
  | 0 => []
  | k + 1 => (a + b) :: fibPrintLoop b (a + b) k

/-- The sequence of numbers printed by `fib(n)`: after `a, b = 0, 1` the
value `b` is printed, then the loop runs `max (n - 1) 0` times. -/
def fib (n : Int) : List Nat :=
  1 :: fibPrintLoop 0 1 (n - 1).toNat

/-- The accumulating loop of `fib2`: each pass computes `f = a + b`,
appends `f` to `result`, and continues with `a, b = b, f`. -/
def fib2Loop (a b : Nat) (result : List Nat) : Nat → List Nat
  | 0 => result
  | k + 1 => fib2Loop b (a + b) (result ++ [a + b]) k

/-- The list returned by `fib2(n)`: starting from `result = [1]`, the
loop runs `max (n - 1) 0` times. -/
def fib2 (n : Int) : List Nat :=
  fib2Loop 0 1 [1] (n - 1).toNat

lemma fib2Loop_eq_append :
    ∀ (k a b : Nat) (result : List Nat),
      fib2Loop a b result k = result ++ fibPrintLoop a b k := by
  intro k
  induction k with
  | zero => intro a b result; simp [fib2Loop, fibPrintLoop]
  | succ k ih =>
      intro a b result
      simp only [fib2Loop, fibPrintLoop, ih, List.append_assoc, List.cons_append,
        List.nil_append]

lemma fibPrintLoop_fib :
    ∀ (k m : Nat),
      fibPrintLoop (Nat.fib m) (Nat.fib (m + 1)) k =
        (List.range k).map fun i => Nat.fib (m + i + 2) := by
  intro k
  induction k with
  | zero => intro m; simp [fibPrintLoop]
  | succ k ih =>
      intro m
      have hadd : Nat.fib m + Nat.fib (m + 1) = Nat.fib (m + 2) :=
        (Nat.fib_add_two).symm
      simp only [fibPrintLoop, hadd]
      have hshift : Nat.fib (m + 1) + Nat.fib (m + 1 + 1) = Nat.fib (m + 1 + 2) :=
        (Nat.fib_add_two).symm
      have := ih (m + 1)
      rw [show Nat.fib (m + 2) = Nat.fib (m + 1 + 1) by norm_num] at this ⊢
      rw [this]
      rw [List.range_succ_eq_map]
      simp only [List.map_cons, List.map_map]
      refine congrArg₂ List.cons (congrArg Nat.fib (by omega)) ?_
      refine List.map_congr_left ?_
      intro i _
      simp only [Function.comp_apply]
      exact congrArg Nat.fib (by omega)

lemma fib2_of_ge (n : Int) (h : 2 ≤ n) :
    fib2 n = (List.range n.toNat).map fun i => Nat.fib (i + 1) := by
  have hsucc : n.toNat = (n - 1).toNat + 1 := by omega
  unfold fib2
  rw [fib2Loop_eq_append]
  have h01 : fibPrintLoop 0 1 (n - 1).toNat =
      (List.range (n - 1).toNat).map fun i => Nat.fib (0 + i + 2) := by
    have := fibPrintLoop_fib (n - 1).toNat 0
    simpa [Nat.fib_zero, Nat.fib_one] using this
  rw [h01, hsucc, List.range_succ_eq_map]
  simp only [List.map_cons, List.map_map, List.singleton_append]
  refine congrArg₂ List.cons (by simp) ?_
  refine List.map_congr_left ?_
  intro i _
  simp only [Function.comp_apply]
  exact congrArg Nat.fib (by omega)

lemma fib2_of_lt (n : Int) (h : n < 2) : fib2 n = [1] := by
  unfold fib2
  have : (n - 1).toNat = 0 := by omega
  rw [this]
  rfl

/-! ## Statistics and plotting in the ensemble notebook

The ensemble notebook computes, from score arrays returned by library
calls, only `np.mean`, `np.std` (row-wise with `axis=1` on the
learning/validation-curve matrices, or the overall mean on
`cross_val_score` vectors) and `np.round(..., decimals=2)`.  Scores are
modelled over `ℚ`; `np.std` is the square root of the mean squared
deviation, with the square root kept as an explicit parameter `sqrt`.

Every plotting cell follows the same shape (e.g. the decision-tree
learning-curve cell):
```
train_score_mean = np.mean(train_score, axis=1)
train_score_std = np.std(train_score, axis=1)
plt.fill_between(train_size, train_score_mean - train_score_std,
                 train_score_mean + train_score_std, ...)
plt.plot(train_size, train_score_mean, ...)
```
-/

/-- `np.mean` of one row of scores. -/
def npMean (row : List ℚ) : ℚ := row.sum / row.length

/-- `np.std` of one row of scores: square root (the `sqrt` parameter) of
the mean squared deviation from the mean. -/
def npStd (sqrt : ℚ → ℚ) (row : List ℚ) : ℚ :=
  sqrt ((row.map fun v => (v - npMean row) ^ 2).sum / row.length)

/-- `np.mean(m, axis=1)`: row-wise means. -/
def npMeanAxis1 (m : List (List ℚ)) : List ℚ := m.map npMean

/-- `np.std(m, axis=1)`: row-wise standard deviations. -/
def npStdAxis1 (sqrt : ℚ → ℚ) (m : List (List ℚ)) : List ℚ :=
  m.map (npStd sqrt)

/-- `np.round(q, decimals=2)`. -/
def npRound2 (q : ℚ) : ℚ := (round (100 * q) : ℤ) / 100

/-- The data a plotting cell sends to the display for one score matrix:
the plotted curve (`plt.plot`) and the lower and upper edges of the
shaded band (`plt.fill_between`). -/
structure CurvePlot where
  curve : List ℚ
  bandLo : List ℚ
  bandHi : List ℚ
deriving Repr

/-- One score matrix's part of a plotting cell, exactly as every plotting
cell of the ensemble notebook computes it:
`mean = np.mean(score, axis=1)`, `std = np.std(score, axis=1)`, curve
`mean`, band from `mean - std` to `mean + std`. -/
def scorePlot (sqrt : ℚ → ℚ) (score : List (List ℚ)) : CurvePlot :=
  let score_mean := npMeanAxis1 score
  let score_std := npStdAxis1 sqrt score
  { curve := score_mean
    bandLo := List.zipWith (fun a b => a - b) score_mean score_std
    bandHi := List.zipWith (fun a b => a + b) score_mean score_std }

/-- `np.round(scores.mean(), decimals=2)`, the notebook's summary of a
`cross_val_score` vector. -/
def cvSummary (scores : List ℚ) : ℚ := npRound2 (npMean scores)

/-- `list(np.round(np.mean(val_score, 1), decimals=2))`, the notebook's
summary of a validation-score matrix. -/
def valScoreSummary (m : List (List ℚ)) : List ℚ :=
  (npMeanAxis1 m).map npRound2

lemma zipWith_map_same {γ : Type} (g : ℚ → ℚ → ℚ) (f1 f2 : γ → ℚ) :
    ∀ (l : List γ),
      List.zipWith g (l.map f1) (l.map f2) = l.map fun x => g (f1 x) (f2 x) := by
  intro l
  induction l with
  | nil => rfl
  | cons a l ih => simp only [List.map_cons, List.zipWith_cons_cons, ih]

/-! ## File operations performed by the repository's code

Every file operation appearing in either notebook, cell by cell:
- ensemble notebook: `pd.read_csv('../Datasets/forest-cover-type.csv')`
  and `pd.read_csv("../Datasets/MNIST/mnist_test.csv")`;
- functions notebook: the `%%writefile fibo.py` cell magic writes
  `fibo.py`, the `!cat fibo.py` shell escape reads it back, and
  `import fibo` reads it again to load the module.
Plots go to the interactive display and `%timeit` touches no file. -/

/-- A file operation: reading or writing a path. -/
inductive FileOp : Type
  | read (path : String)
  | write (path : String)
deriving DecidableEq, Repr

/-- All file operations performed by the two notebooks, in cell order
(ensemble notebook first, then the functions notebook). -/
def notebookFileOps : List FileOp :=
  [FileOp.read "../Datasets/forest-cover-type.csv",
   FileOp.read "../Datasets/MNIST/mnist_test.csv",
   FileOp.write "fibo.py",
   FileOp.read "fibo.py",
   FileOp.read "fibo.py"]

/-! ## Error-aware embeddings

Python raises `KeyError` on a missing dictionary key and `IndexError` on
an out-of-range list index.  The notebook functions are re-embedded in
the `Except` monad with every possibly-raising primitive marked, to show
that no notebook-defined operation ever raises; and a notebook cell is a
straight-line `do`-sequence with no handler, so a library error
propagates unchanged. -/

/-- An error raised by the Python runtime. -/
inductive PyError : Type
  | indexError : PyError
  | keyError : PyError
deriving DecidableEq, Repr

/-- `counts[x]` on a dict: the stored value, or `KeyError`. -/
def dictGet {α : Type} [DecidableEq α] : List (α × Nat) → α → Except PyError Nat
  | [], _ => .error .keyError
  | (k, v) :: rest, x => if k = x then .ok v else dictGet rest x

/-- `counts[x] = v` on a dict: update in place if the key is present,
otherwise append; never raises. -/
def dictSet {α : Type} [DecidableEq α] : List (α × Nat) → α → Nat → List (α × Nat)
  | [], x, v => [(x, v)]
  | (k, w) :: rest, x, v =>
      if k = x then (k, v) :: rest else (k, w) :: dictSet rest x v

/-- The body of the `get_counts` loop with raising primitives marked:
`counts[x] += 1` reads (possibly `KeyError`) then writes. -/
def bumpE {α : Type} [DecidableEq α] (counts : List (α × Nat)) (x : α) :
    Except PyError (List (α × Nat)) :=
  if x ∈ counts.map Prod.fst then do
    let v ← dictGet counts x
    pure (dictSet counts x (v + 1))
  else
    pure (dictSet counts x 1)

/-- The `get_counts` loop in the `Except` monad. -/
def get_countsE_loop {α : Type} [DecidableEq α]
    (counts : List (α × Nat)) : List α → Except PyError (List (α × Nat))
  | [] => pure counts
  | x :: rest => do
      let counts2 ← bumpE counts x
      get_countsE_loop counts2 rest

/-- `get_counts` in the `Except` monad. -/
def get_countsE {α : Type} [DecidableEq α] (s : List α) :
    Except PyError (List (α × Nat)) :=
  get_countsE_loop [] s

/-- `some_list[pos]` read: the element, or `IndexError`. -/
def listGetE {α : Type} (l : List α) (i : Nat) : Except PyError α :=
  match l[i]? with
  | some v => pure v
  | none => .error .indexError

/-- `some_list[pos] = v` write: the updated list, or `IndexError`. -/
def listSetE {α : Type} (l : List α) (i : Nat) (v : α) :
    Except PyError (List α) :=
  if i < l.length then pure (l.set i v) else .error .indexError

/-- The `double_list` loop in the `Except` monad: each pass reads
`some_list[pos]`, doubles it and writes it back. -/
def double_listE_loop {α : Type} (t2 : α → α) (cur : List α) :
    List Nat → Except PyError (List α)
  | [] => pure cur
  | pos :: rest => do
      let v ← listGetE cur pos
      let cur2 ← listSetE cur pos (t2 v)
      double_listE_loop t2 cur2 rest

/-- `double_list` in the `Except` monad. -/
def double_listE {α : Type} (t2 : α → α) (l : List α) :
    Except PyError (Unit × List α) := do
  let res ← double_listE_loop t2 l (List.range l.length)
  pure ((), res)

/-- A notebook cell as a straight-line sequence: the result of the first
statement (e.g. a library call such as `pd.read_csv`) feeds the rest of
the cell, with no `try`/`except` anywhere in the notebooks. -/
def cellSeq {σ τ : Type} (first : Except PyError σ)
    (rest : σ → Except PyError τ) : Except PyError τ :=
  first.bind rest

lemma dictGet_dictSet_of_mem {α : Type} [DecidableEq α] (x : α) :
    ∀ (counts : List (α × Nat)), x ∈ counts.map Prod.fst →
      ∃ v, dictGet counts x = .ok v ∧ dictSet counts x (v + 1) = bump counts x := by
  intro counts
  induction counts with
  | nil => intro h; simp at h
  | cons p rest ih =>
      intro h
      obtain ⟨k, w⟩ := p
      by_cases hk : k = x
      · refine ⟨w, ?_, ?_⟩
        · simp [dictGet, hk]
        · simp [dictSet, bump, hk]
      · have hx : x ∈ rest.map Prod.fst := by
          rcases List.mem_cons.mp h with h1 | h1
          · exact absurd h1.symm hk
          · exact h1
        obtain ⟨v, hget, hset⟩ := ih hx
        refine ⟨v, ?_, ?_⟩
        · simpa [dictGet, hk] using hget
        · simp [dictSet, bump, hk, hset]

lemma dictSet_of_not_mem {α : Type} [DecidableEq α] (x : α) :
    ∀ (counts : List (α × Nat)), x ∉ counts.map Prod.fst →
      dictSet counts x 1 = bump counts x := by
  intro counts
  induction counts with
  | nil => intro _; rfl
  | cons p rest ih =>
      intro h
      obtain ⟨k, w⟩ := p
      have hk : k ≠ x := by
        intro hkx
        exact h (by simp [hkx])
      have hx : x ∉ rest.map Prod.fst := by
        intro hmem
        exact h (by simp [hmem])
      simp [dictSet, bump, hk, ih hx]

lemma bumpE_eq_ok {α : Type} [DecidableEq α] (counts : List (α × Nat)) (x : α) :
    bumpE counts x = .ok (bump counts x) := by
  unfold bumpE
  by_cases h : x ∈ counts.map Prod.fst
  · rw [if_pos h]
    obtain ⟨v, hget, hset⟩ := dictGet_dictSet_of_mem x counts h
    rw [hget]
    simp [hset]
  · rw [if_neg h]
    rw [dictSet_of_not_mem x counts h]
    rfl

lemma get_countsE_loop_eq_ok {α : Type} [DecidableEq α] :
    ∀ (s : List α) (counts : List (α × Nat)),
      get_countsE_loop counts s = .ok (s.foldl bump counts) := by
  intro s
  induction s with
  | nil => intro counts; rfl
  | cons x rest ih =>
      intro counts
      simp only [get_countsE_loop, bumpE_eq_ok, List.foldl_cons]
      simpa using ih (bump counts x)

lemma get_countsE_eq_ok {α : Type} [DecidableEq α] (s : List α) :
    get_countsE s = .ok (get_counts s) :=
  get_countsE_loop_eq_ok s []

lemma double_listE_loop_eq_ok {α : Type} (t2 : α → α) :
    ∀ (ps : List Nat) (cur : List α), (∀ p ∈ ps, p < cur.length) →
      double_listE_loop t2 cur ps = .ok (ps.foldl (double_list_step t2) cur) := by
  intro ps
  induction ps with
  | nil => intro cur _; rfl
  | cons p rest ih =>
      intro cur hps
      have hp : p < cur.length := hps p (List.mem_cons_self p rest)
      obtain ⟨v, hsome⟩ : ∃ v, cur[p]? = some v := by
        rw [List.getElem?_eq_getElem hp]
        exact ⟨_, rfl⟩
      have hstep : double_list_step t2 cur p = cur.set p (t2 v) := by
        unfold double_list_step
        rw [hsome]
      have hred : double_listE_loop t2 cur (p :: rest) =
          double_listE_loop t2 (double_list_step t2 cur p) rest := by
        rw [hstep]
        show (do
          let v ← listGetE cur p
          let cur2 ← listSetE cur p (t2 v)
          double_listE_loop t2 cur2 rest) = _
        simp only [listGetE, hsome, listSetE, if_pos hp]
        rfl
      rw [hred, List.foldl_cons]
      refine ih (double_list_step t2 cur p) ?_
      intro q hq
      rw [double_list_step_length]
      exact hps q (List.mem_cons_of_mem _ hq)

lemma double_listE_eq_ok {α : Type} (t2 : α → α) (l : List α) :
    double_listE t2 l = .ok (double_list t2 l) := by
  unfold double_listE
  rw [double_listE_loop_eq_ok t2 (List.range l.length) l
    (fun p hp => List.mem_range.mp hp)]
  rfl

/-! ## The forest-cover train/test split (ensemble notebook)

Source:
```
X_train, X_test, y_train, y_test = train_test_split(X, y, test_size=0.2, random_state=42)
```
`train_test_split` is scikit-learn code, not part of this repository; its
documented behaviour is modelled here: with a float `test_size`, the test
set receives `ceil(n * test_size)` of the `n` rows and the training set
the remainder; the rows are selected by a pseudo-random permutation that
depends only on the seed and `n`.  The permutation generator itself is an
abstract parameter `shuffle`.  Passing `random_state=j` replaces the
ambient global RNG state by the fixed seed `j`, which is what makes the
split deterministic.  (The notebook's accompanying markdown says the
proportions are 2/3–1/3, but the code passes `test_size=0.2`.) -/

/-- Number of test rows: `ceil(n * test_size)`. -/
def ceilTestCount (n : Nat) (test_size : ℚ) : Nat :=
  (Int.ceil ((n : ℚ) * test_size)).toNat

/-- Model of `train_test_split(X, test_size=..., random_state=...)` for
the row matrix: shuffle the row indices with the effective seed, put the
first `ceil(n * test_size)` shuffled rows in the test set and the rest in
the training set, returning `(train, test)`. -/
def train_test_split {ρ : Type} (shuffle : Nat → Nat → List Nat)
    (ambientSeed : Nat) (random_state : Option Nat) (X : List ρ)
    (test_size : ℚ) : List ρ × List ρ :=
  let n := X.length
  let n_test := ceilTestCount n test_size
  let seed := random_state.getD ambientSeed
  let order := shuffle seed n
  ((order.drop n_test).filterMap fun i => X[i]?,
   (order.take n_test).filterMap fun i => X[i]?)

/-- The notebook's forest-cover split call:
`train_test_split(X, y, test_size=0.2, random_state=42)`. -/
def forestSplit {ρ : Type} (shuffle : Nat → Nat → List Nat)
    (ambientSeed : Nat) (X : List ρ) : List ρ × List ρ :=
  train_test_split shuffle ambientSeed (some 42) X (1 / 5)

lemma filterMap_getElem_length {ρ : Type} (X : List ρ) :
    ∀ (idxs : List Nat), (∀ i ∈ idxs, i < X.length) →
      (idxs.filterMap fun i => X[i]?).length = idxs.length := by
  intro idxs
  induction idxs with
  | nil => intro _; rfl
  | cons i rest ih =>
      intro h
      have hi : i < X.length := h i (List.mem_cons_self i rest)
      simp only [List.filterMap_cons, List.getElem?_eq_getElem hi]
      simp only [List.length_cons]
      rw [ih fun j hj => h j (List.mem_cons_of_mem _ hj)]

lemma ceilTestCount_le (n : Nat) : ceilTestCount n (1 / 5) ≤ n := by
  unfold ceilTestCount
  have h1 : (n : ℚ) * (1 / 5) ≤ (n : ℚ) := by
    rcases Nat.eq_zero_or_pos n with h | h
    · simp [h]
    · have : (0 : ℚ) < (n : ℚ) := by exact_mod_cast h
      nlinarith
  have h2 : Int.ceil ((n : ℚ) * (1 / 5)) ≤ Int.ceil ((n : ℚ)) := Int.ceil_le_ceil h1
  have h3 : Int.ceil ((n : ℚ)) = (n : ℤ) := by
    exact_mod_cast Int.ceil_intCast (α := ℚ) (n : ℤ)
  omega

lemma ceilTestCount_of_dvd (n : Nat) (h : 5 ∣ n) :
    ceilTestCount n (1 / 5) = n / 5 := by
  obtain ⟨m, rfl⟩ := h
  unfold ceilTestCount
  have : ((5 * m : Nat) : ℚ) * (1 / 5) = ((m : ℤ) : ℚ) := by
    push_cast
    ring
  rw [this, Int.ceil_intCast]
  omega

/-! ## Claim theorems -/

/-- C1 (counterexample): the claim that no deterministic, self-contained
algorithmic behaviour (counting, list transformation, series generation)
is authored in this repository is false: `get_counts`, defined in the
functions notebook with language primitives only (a loop over the list
and dictionary updates, no library call), deterministically computes
element counts on the notebook's own example input, and `fib2`, likewise
authored in the notebook, deterministically generates the Fibonacci
series. -/
theorem claim1_counterexample :
    get_counts (['a', 'c', 'd', 'a', 'c', 'a', 'd', 'b'] : List Char) =
      [('a', 3), ('c', 2), ('d', 2), ('b', 1)] ∧
    fib2 7 = [1, 1, 2, 3, 5, 8, 13] := by
  decide

/-- C1 (amended): the ensemble notebook delegates its computational work
to third-party libraries, but the functions notebook does author
self-contained deterministic algorithms: `get_counts` counts occurrences
of each element, `double_list` transforms a list by doubling each
position, and `fib2` generates the Fibonacci series. -/
theorem claim1_amended_algorithms :
    (∀ {α : Type} [DecidableEq α] (s : List α) (x : α),
        x ∈ (get_counts s).map Prod.fst ↔ x ∈ s) ∧
    (∀ (l : List Int) (i : Nat),
        (double_list intTimes2 l).2[i]? = (l[i]?).map fun v => v * 2) ∧
    ∀ n : Int, 2 ≤ n →
        fib2 n = (List.range n.toNat).map fun i => Nat.fib (i + 1) := by
  refine ⟨?_, ?_, ?_⟩
  · intro α _ s x
    rw [get_counts_keys]
    exact mem_firstOccurrences x s
  · intro l i
    exact double_list_getElem intTimes2 l i
  · intro n h
    exact fib2_of_ge n h

/-- C1 (witness for the amended claim, at `n = 7`). -/
theorem claim1_amended_witness :
    (2 : Int) ≤ 7 ∧
    fib2 7 = (List.range (7 : Int).toNat).map fun i => Nat.fib (i + 1) :=
  ⟨by decide, claim1_amended_algorithms.2.2 7 (by decide)⟩

/-- C2: for every list `s`, `get_counts s` returns exactly one
`(element, count)` pair per distinct element of `s`, in order of first
occurrence, with the count equal to the number of occurrences of that
element in `s`; in particular `get_counts []` is the empty list. -/
theorem claim2_get_counts_correct :
    (∀ {α : Type} [DecidableEq α] (s : List α),
        get_counts s = (firstOccurrences s).map (fun k => (k, s.count k)) ∧
        ((get_counts s).map Prod.fst).Nodup ∧
        ∀ x : α, x ∈ (get_counts s).map Prod.fst ↔ x ∈ s) ∧
    get_counts ([] : List Char) = [] := by
  constructor
  · intro α _ s
    refine ⟨get_counts_eq s, ?_, ?_⟩
    · rw [get_counts_keys]
      exact nodup_firstOccurrences s
    · intro x
      rw [get_counts_keys]
      exact mem_firstOccurrences x s
  · rfl

/-- C3: `double_list` mutates its argument in place and returns `None`
(modelled by `Unit`): the post-state list has the original length and the
element at every position is the original element multiplied by 2 —
numeric doubling for integers, self-concatenation for strings. -/
theorem claim3_double_list_correct :
    (∀ (l : List Int),
        (double_list intTimes2 l).2.length = l.length ∧
        ∀ i : Nat, (double_list intTimes2 l).2[i]? = (l[i]?).map fun v => v * 2) ∧
    (∀ (l : List String),
        (double_list strTimes2 l).2.length = l.length ∧
        ∀ i : Nat, (double_list strTimes2 l).2[i]? = (l[i]?).map fun v => v ++ v) ∧
    ∀ {α : Type} (t2 : α → α) (l : List α), (double_list t2 l).1 = () := by
  refine ⟨?_, ?_, ?_⟩
  · intro l
    exact ⟨double_list_length intTimes2 l, fun i => double_list_getElem intTimes2 l i⟩
  · intro l
    exact ⟨double_list_length strTimes2 l, fun i => double_list_getElem strTimes2 l i⟩
  · intro α t2 l
    rfl

/-- C4: `sorted(strings, key = lambda x: len(x))` returns a permutation
of the input in nondecreasing order of string length, and
`sorted(student_tuples, key = lambda s: s[2])` returns a permutation in
nondecreasing order of the third component; in this pure embedding the
input list is a value and is inherently left unchanged. -/
theorem claim4_sorted_key_correct :
    (∀ (strings : List String),
        (sortedByKey String.length strings).Perm strings ∧
        (sortedByKey String.length strings).Pairwise
          fun a b => a.length ≤ b.length) ∧
    ∀ (student_tuples : List (String × String × Nat)),
        (sortedByKey (fun s => s.2.2) student_tuples).Perm student_tuples ∧
        (sortedByKey (fun s => s.2.2) student_tuples).Pairwise
          fun a b => a.2.2 ≤ b.2.2 := by
  constructor
  · intro strings
    exact ⟨sortedByKey_perm _ strings, sortedByKey_pairwise _ strings⟩
  · intro student_tuples
    exact ⟨sortedByKey_perm _ student_tuples, sortedByKey_pairwise _ student_tuples⟩

/-- C5 (counterexample): the claim that no file beyond the two CSV inputs
is read and no file is written is false: the `%%writefile fibo.py` cell
writes the file `fibo.py` (and `!cat fibo.py` / `import fibo` read it
back). -/
theorem claim5_counterexample :
    FileOp.write "fibo.py" ∈ notebookFileOps ∧
    ¬ ∀ op ∈ notebookFileOps,
        op = FileOp.read "../Datasets/forest-cover-type.csv" ∨
        op = FileOp.read "../Datasets/MNIST/mnist_test.csv" := by
  decide

/-- C5 (amended): beyond reading the two CSV files and producing plots to
the interactive display, the only other file I/O of the repository's code
is the module file `fibo.py`: written once by the `%%writefile` cell and
read back by `!cat` and `import fibo`. -/
theorem claim5_amended_file_ops :
    notebookFileOps.all (fun op =>
      decide (op = FileOp.read "../Datasets/forest-cover-type.csv") ||
      decide (op = FileOp.read "../Datasets/MNIST/mnist_test.csv") ||
      decide (op = FileOp.write "fibo.py") ||
      decide (op = FileOp.read "fibo.py")) = true := by
  decide

/-- C6: no operation authored in the notebooks catches, transforms,
retries or recovers from an error, and no notebook-defined operation
raises one: in the `Except`-monad embeddings with every possibly-raising
primitive marked, `get_counts` and `double_list` always return `ok` (the
dictionary read is guarded by the `in` test, the list index always lies
in `range(len(...))`), and a cell being a straight-line sequence with no
handler, an error produced by a library call propagates unchanged. -/
theorem claim6_no_error_handling :
    (∀ {α : Type} [DecidableEq α] (s : List α),
        get_countsE s = Except.ok (get_counts s)) ∧
    (∀ {α : Type} (t2 : α → α) (l : List α),
        double_listE t2 l = Except.ok (double_list t2 l)) ∧
    ∀ {σ τ : Type} (e : PyError) (rest : σ → Except PyError τ),
        cellSeq (Except.error e) rest = Except.error e := by
  refine ⟨?_, ?_, ?_⟩
  · intro α _ s
    exact get_countsE_eq_ok s
  · intro α t2 l
    exact double_listE_eq_ok t2 l
  · intro σ τ e rest
    rfl

/-- C7: in every plotting cell of the ensemble notebook the plotted curve
equals the row-wise (`axis=1`) mean of the score matrix and the shaded
band, drawn from `mean - std` to `mean + std`, has half-width equal to
the row-wise standard deviation (and is centred on the mean); the
`cross_val_score` summaries are the overall arithmetic mean rounded to
two decimals, and the printed validation-score lists are row-wise means
rounded to two decimals. -/
theorem claim7_statistics_plots :
    (∀ (sqrt : ℚ → ℚ) (score : List (List ℚ)),
        (scorePlot sqrt score).curve = npMeanAxis1 score ∧
        List.zipWith (fun hi lo => (hi - lo) / 2)
            (scorePlot sqrt score).bandHi (scorePlot sqrt score).bandLo =
          npStdAxis1 sqrt score ∧
        List.zipWith (fun hi lo => (hi + lo) / 2)
            (scorePlot sqrt score).bandHi (scorePlot sqrt score).bandLo =
          npMeanAxis1 score) ∧
    (∀ (scores : List ℚ),
        cvSummary scores = npRound2 (scores.sum / scores.length)) ∧
    ∀ (m : List (List ℚ)),
        valScoreSummary m = m.map fun row => npRound2 (row.sum / row.length) := by
  refine ⟨?_, ?_, ?_⟩
  · intro sqrt score
    refine ⟨rfl, ?_, ?_⟩
    · show List.zipWith _
          (List.zipWith (fun a b => a + b) (npMeanAxis1 score) (npStdAxis1 sqrt score))
          (List.zipWith (fun a b => a - b) (npMeanAxis1 score) (npStdAxis1 sqrt score)) = _
      unfold npMeanAxis1 npStdAxis1
      rw [zipWith_map_same, zipWith_map_same, zipWith_map_same]
      refine List.map_congr_left ?_
      intro r _
      ring
    · show List.zipWith _
          (List.zipWith (fun a b => a + b) (npMeanAxis1 score) (npStdAxis1 sqrt score))
          (List.zipWith (fun a b => a - b) (npMeanAxis1 score) (npStdAxis1 sqrt score)) = _
      unfold npMeanAxis1 npStdAxis1
      rw [zipWith_map_same, zipWith_map_same, zipWith_map_same]
      refine List.map_congr_left ?_
      intro r _
      ring
  · intro scores
    rfl
  · intro m
    unfold valScoreSummary npMeanAxis1
    rw [List.map_map]
    rfl

/-- C8: `get_counts` never mutates its argument: in the state-threaded
embedding, after the loop the argument list state equals the input (and
the returned pairs are those of `get_counts`) — in contrast to
`double_list`, which does modify its argument, e.g. on `[1, 3, 5, 7]`. -/
theorem claim8_get_counts_frame :
    (∀ {α : Type} [DecidableEq α] (s : List α),
        (get_counts_st s).2 = s ∧ (get_counts_st s).1 = get_counts s) ∧
    (double_list intTimes2 [1, 3, 5, 7]).2 ≠ [1, 3, 5, 7] := by
  constructor
  · intro α _ s
    exact ⟨get_counts_st_snd s ([], s), get_counts_st_fst s [] s⟩
  · decide

/-- C9: for every integer `n` the sequence of numbers printed by `fib(n)`
equals the list returned by `fib2(n)`; for `n ≥ 2` both are the first `n`
Fibonacci numbers `1, 1, 2, 3, 5, ...`, and for `n < 2` (including `0`
and negative `n`) both are the single number `1`. -/
theorem claim9_fib_fib2_equiv :
    ∀ n : Int,
      fib n = fib2 n ∧
      fib2 n = if 2 ≤ n
        then (List.range n.toNat).map fun i => Nat.fib (i + 1)
        else [1] := by
  intro n
  constructor
  · unfold fib fib2
    rw [fib2Loop_eq_append]
    rfl
  · by_cases h : 2 ≤ n
    · rw [if_pos h]
      exact fib2_of_ge n h
    · rw [if_neg h]
      exact fib2_of_lt n (by omega)

/-- C10: the forest-cover split passes `test_size=0.2` and
`random_state=42`: the result does not depend on the ambient RNG state
(two runs on the same data produce the same partition), the test set
receives `ceil(n / 5)` rows and the training set the rest, and whenever
`5 ∣ n` — as for the 15120-row forest dataset — that is exactly 20% and
80% of the rows (not the 2/3–1/3 proportions stated in the notebook's
accompanying prose). -/
theorem claim10_forest_split :
    (∀ {ρ : Type} (shuffle : Nat → Nat → List Nat) (amb1 amb2 : Nat) (X : List ρ),
        forestSplit shuffle amb1 X = forestSplit shuffle amb2 X) ∧
    (∀ {ρ : Type} (shuffle : Nat → Nat → List Nat) (amb : Nat) (X : List ρ),
        (shuffle 42 X.length).length = X.length →
        (∀ i ∈ shuffle 42 X.length, i < X.length) →
        (forestSplit shuffle amb X).2.length = ceilTestCount X.length (1 / 5) ∧
        (forestSplit shuffle amb X).1.length =
          X.length - ceilTestCount X.length (1 / 5)) ∧
    ∀ n : Nat, 5 ∣ n →
        ceilTestCount n (1 / 5) = n / 5 ∧
        n - ceilTestCount n (1 / 5) = 4 * (n / 5) := by
  refine ⟨?_, ?_, ?_⟩
  · intro ρ shuffle amb1 amb2 X
    rfl
  · intro ρ shuffle amb X hlen hvalid
    constructor
    · have h1 : (forestSplit shuffle amb X).2 =
          ((shuffle 42 X.length).take (ceilTestCount X.length (1 / 5))).filterMap
            (fun i => X[i]?) := rfl
      rw [h1, filterMap_getElem_length X _
        (fun i hi => hvalid i (List.mem_of_mem_take hi))]
      rw [List.length_take, hlen]
      exact Nat.min_eq_left (ceilTestCount_le X.length)
    · have h1 : (forestSplit shuffle amb X).1 =
          ((shuffle 42 X.length).drop (ceilTestCount X.length (1 / 5))).filterMap
            (fun i => X[i]?) := rfl
      rw [h1, filterMap_getElem_length X _
        (fun i hi => hvalid i (List.mem_of_mem_drop hi))]
      rw [List.length_drop, hlen]
  · intro n hdvd
    refine ⟨ceilTestCount_of_dvd n hdvd, ?_⟩
    rw [ceilTestCount_of_dvd n hdvd]
    omega

/-- C10 (witness): the split-size facts at a concrete five-row table with
the identity shuffle, and the exact 20%/80% proportions at the forest
dataset's row count 15120. -/
theorem claim10_forest_split_witness :
    ((forestSplit (fun _ m => List.range m) 0 ([10, 20, 30, 40, 50] : List Nat)).2.length =
        ceilTestCount ([10, 20, 30, 40, 50] : List Nat).length (1 / 5) ∧
      (forestSplit (fun _ m => List.range m) 0 ([10, 20, 30, 40, 50] : List Nat)).1.length =
        ([10, 20, 30, 40, 50] : List Nat).length -
          ceilTestCount ([10, 20, 30, 40, 50] : List Nat).length (1 / 5)) ∧
    (5 ∣ 15120 ∧
      ceilTestCount 15120 (1 / 5) = 15120 / 5 ∧
      15120 - ceilTestCount 15120 (1 / 5) = 4 * (15120 / 5)) :=
  ⟨claim10_forest_split.2.1 (fun _ m => List.range m) 0 [10, 20, 30, 40, 50]
      (by decide) (by decide),
    ⟨3024, by norm_num⟩,
    claim10_forest_split.2.2 15120 ⟨3024, by norm_num⟩⟩

end CDS
